import Mathlib

/-!
A shallow embedding of the rule-store component of a structural
code-rewriting engine (`src/models/rule_store.rs`), together with proofs
of the specified properties of its operations.

Rust `HashMap<String, _>` values are modelled as association lists with
first-match lookup; `HashMap::extend` is modelled as a fold of
overwrite-or-append inserts, which matches the Rust semantics on the
maps reachable in the engine (keys unique).  Iteration order of a Rust
`HashMap` is unspecified; the model iterates in list order, and no
theorem below depends on that order beyond membership and counts.
-/

namespace Piranha

/-- First-match lookup in an association list (model of `HashMap::get`). -/
def alookup {α : Type} (m : List (String × α)) (k : String) : Option α :=
  match m with
  | [] => none
  | p :: rest => if p.1 == k then some p.2 else alookup rest k

/-- Update-or-append at a key: when the key is present, rewrite its
value through `f ∘ some`; otherwise append `(k, f none)`. -/
def aupsert {α : Type} (m : List (String × α)) (k : String) (f : Option α → α) :
    List (String × α) :=
  if m.any (fun p => p.1 == k) then
    m.map (fun p => if p.1 == k then (p.1, f (some p.2)) else p)
  else m ++ [(k, f none)]

/-- Overwrite-or-append insertion (model of `HashMap::insert`). -/
def ainsert {α : Type} (m : List (String × α)) (k : String) (v : α) : List (String × α) :=
  aupsert m k (fun _ => v)

/-- The key set of an association list. -/
def akeys {α : Type} (m : List (String × α)) : List String :=
  m.map (fun p => p.1)

/-- A substitution environment: tag name to captured string. -/
abbrev Env := List (String × String)

/-- Model of Rust `str::starts_with`: the characters of `pre` are a
prefix of the characters of `s`. -/
def strStarts (s pre : String) : Bool :=
  pre.data.isPrefixOf s.data

/-- Model of `HashMap::extend`: insert every entry of `new`, overwriting. -/
def envExtend (m new : Env) : Env :=
  new.foldl (fun acc p => ainsert acc p.1 p.2) m

/-- Modelled from the spec: a segment of a rule template — a literal
string or a `@name` hole (`rule.rs` is not part of the sources; §4.1 of
the spec describes templates as strings with `@name` holes). -/
inductive Segment : Type
  | lit (s : String)
  | hole (tag : String)
deriving DecidableEq

/-- A template: a sequence of literal segments and holes. -/
abbrev Template := List Segment

/-- Modelled from the spec: rendering a template against an environment
replaces each hole with its bound value and fails if any hole is
unbound (§4.1). -/
def renderTemplate (env : Env) : Template → Option Template
  | [] => some []
  | Segment.lit s :: rest =>
    (renderTemplate env rest).map (fun r => Segment.lit s :: r)
  | Segment.hole n :: rest =>
    match alookup env n, renderTemplate env rest with
    | some v, some r => some (Segment.lit v :: r)
    | _, _ => none

/-- Render a list of templates, failing if any fails. -/
def renderAll (env : Env) : List Template → Option (List Template)
  | [] => some []
  | t :: rest =>
    match renderTemplate env t, renderAll env rest with
    | some t2, some r => some (t2 :: r)
    | _, _ => none

/-- Modelled from the spec: a rule — name, structural query, replacement
template, group memberships and filter sub-queries (§3 Data Model). -/
structure Rule : Type where
  name : String
  query : Template
  replace : Template
  groups : List String
  filters : List Template
deriving DecidableEq

/-- Modelled from the spec: `Rule::try_instantiate` renders every
string-valued field (query, replacement, filter sub-queries) against the
environment and fails with an unbound hole otherwise (§4.1). -/
def try_instantiate (r : Rule) (env : Env) : Option Rule :=
  match renderTemplate env r.query, renderTemplate env r.replace, renderAll env r.filters with
  | some q, some rep, some fs =>
    some { r with query := q, replace := rep, filters := fs }
  | _, _, _ => none

/-- Modelled from the spec: `Rule::instantiate`, the non-fallible
variant used by `get_next`.  In the engine an unbound hole here is a
panic; the model keeps the rule unrendered in that case, and every
theorem about it assumes the rendering succeeds. -/
def instantiate (r : Rule) (env : Env) : Rule :=
  (try_instantiate r env).getD r

/-- Modelled from the spec: a dummy rule has no query and no replacement
(glossary: "a rule with no query and no replacement"). -/
def is_dummy (r : Rule) : Bool :=
  r.query.isEmpty && r.replace.isEmpty

/-- Modelled from the spec: a seed rule is one whose groups contain the
distinguished membership `seed`. -/
def is_seed_rule (r : Rule) : Bool :=
  r.groups.contains "seed"

/-- Modelled from the spec: `add_to_seed_rules_group` adds the `seed`
membership to a rule's groups (called on every rule read from
`rules.toml` in `read_config_files`). -/
def add_to_seed_rules_group (r : Rule) : Rule :=
  { r with groups := r.groups ++ ["seed"] }

/-- Modelled from the spec: a compiled structural query.  Compilation by
the language binding is external; the model tags the source string. -/
structure Query : Type where
  source : String
deriving DecidableEq

/-- Modelled from the spec: the language binding's `create_query`. -/
def create_query (s : String) : Query := ⟨s⟩

/-- Modelled from the spec: one entry of a scope generator —
`{enclosing_node: query, scope: template}` (§6). -/
structure ScopeQueryGenerator : Type where
  enclosing_node : String
  scope : String
deriving DecidableEq

/-- Modelled from the spec: a scope generator — a scope kind name and
its scope query rules (§6). -/
structure ScopeGenerator : Type where
  name : String
  rules : List ScopeQueryGenerator
deriving DecidableEq

/-- Modelled from the spec: the arguments the store reads — the
process-level input substitutions and the configured global tag prefix
(`global_tag_prefix` in `piranha_arguments.toml`, §6). -/
structure PiranhaArguments : Type where
  input_substitutions : Env
  global_tag_pre : String
deriving DecidableEq

/-- The rule store (`RuleStore` in `rule_store.rs`).  The tree-sitter
`language` handle is an external binding and is omitted. -/
structure RuleStore : Type where
  rule_graph : List (String × List (String × String))
  rule_query_cache : List (String × Query)
  rules_by_name : List (String × Rule)
  global_rules : List Rule
  scopes : List ScopeGenerator
  piranha_args : PiranhaArguments
  global_tags : Env

/-- Modelled from the spec: `RuleGraph::get_neighbors` — the adjacency
list entry for a rule name, empty when the name has no outgoing edges
(§3: "Adjacency from rule name to a list of (scope, to_rule_name)"). -/
def get_neighbors (g : List (String × List (String × String))) (rule_name : String) :
    List (String × String) :=
  (alookup g rule_name).getD []

/-- `RuleStore::default_substitutions`: clone the input substitutions
and extend with the global tags. -/
def default_substitutions (s : RuleStore) : Env :=
  envExtend s.piranha_args.input_substitutions s.global_tags

/-- `RuleStore::add_to_global_rules`: instantiate the rule under the tag
captures; on success append to the global worklist unless an identical
instantiated rule is already present; on failure do nothing. -/
def add_to_global_rules (s : RuleStore) (rule : Rule) (tag_captures : Env) : RuleStore :=
  match try_instantiate rule tag_captures with
  | some r =>
    if s.global_rules.contains r then s
    else { s with global_rules := s.global_rules ++ [r] }
  | none => s

/-- `RuleStore::query`: look the query string up in the cache; on a miss
compile it, add it to the cache and return it. -/
def query (s : RuleStore) (query_str : String) : Query × RuleStore :=
  match alookup s.rule_query_cache query_str with
  | some q => (q, s)
  | none =>
    let q := create_query query_str
    (q, { s with rule_query_cache := s.rule_query_cache ++ [(query_str, q)] })

/-- The map returned by `get_next`: scope name to the rules to run there. -/
abbrev ScopeMap := List (String × List Rule)

/-- Lookup in a scope map, defaulting to the empty list. -/
def smLookup (m : ScopeMap) (k : String) : List Rule :=
  (alookup m k).getD []

/-- `MapOfVec::collect`: push a value onto the vector stored at a key,
creating the entry when absent. -/
def collect (m : ScopeMap) (k : String) (v : Rule) : ScopeMap :=
  aupsert m k (fun o => o.getD [] ++ [v])

/-- `entry(k).or_default()`: make sure the key is present. -/
def smEnsure (m : ScopeMap) (k : String) : ScopeMap :=
  aupsert m k (fun o => o.getD [])

/-- `RuleStore::get_next`: the next rules to apply, grouped by scope.
Dummy target rules are expanded transparently by recursion; the `fuel`
argument models the engine's recursion stack (the Rust code recurses
without a bound and would not return on a cycle of dummies; every
theorem about a dummy chain assumes enough fuel for its depth).  The
keys `Parent` and `Global` are always added at the end. -/
def get_next (s : RuleStore) : Nat → String → Env → ScopeMap
  | 0, _, _ => smEnsure (smEnsure [] "Parent") "Global"
  | fuel + 1, rule_name, tag_matches =>
    let next_rules := (get_neighbors s.rule_graph rule_name).foldl
      (fun next_rules edge =>
        match alookup s.rules_by_name edge.2 with
        | none => next_rules
        | some to_rule =>
          if is_dummy to_rule then
            (get_next s fuel edge.2 tag_matches).foldl
              (fun acc entry =>
                entry.2.foldl
                  (fun acc2 r => collect acc2 entry.1 (instantiate r tag_matches)) acc)
              next_rules
          else
            collect next_rules edge.1 (instantiate to_rule tag_matches))
      []
    smEnsure (smEnsure next_rules "Parent") "Global"

/-- `RuleStore::get_scope_query_generators`: the rules of the first
scope generator whose name equals the scope level, else empty. -/
def get_scope_query_generators (s : RuleStore) (scope_level : String) :
    List ScopeQueryGenerator :=
  ((s.scopes.find? (fun level => level.name == scope_level)).map
    (fun sc => sc.rules)).getD []

/-- `RuleStore::add_global_tags`: keep only the entries whose key starts
with the configured global tag prefix and extend `global_tags` with
them. -/
def add_global_tags (s : RuleStore) (new_entries : Env) : RuleStore :=
  let global_substitutions := new_entries.filter
    (fun e => strStarts e.1 s.piranha_args.global_tag_pre)
  { s with global_tags := envExtend s.global_tags global_substitutions }

/-- `read_config_files` restricted to the rule lists: the language rules
are used as loaded, while every rule read from `rules.toml` is first
added to the seed rules group; the two lists are concatenated. -/
def config_rules (language_rules input_rules : List Rule) : List Rule :=
  language_rules ++ input_rules.map add_to_seed_rules_group

/-- `RuleStore::new`: build `rules_by_name` from the configured rules,
then add every seed rule to the global worklist, instantiated against
the input substitutions.  The rule graph is built by an external
constructor and is taken as given. -/
def ruleStoreNew (args : PiranhaArguments) (language_rules input_rules : List Rule)
    (graph : List (String × List (String × String))) (scopes : List ScopeGenerator) :
    RuleStore :=
  let all_rules := config_rules language_rules input_rules
  let store0 : RuleStore :=
    { rule_graph := graph
      rule_query_cache := []
      rules_by_name := all_rules.foldl (fun m r => ainsert m r.name r) []
      global_rules := []
      scopes := scopes
      piranha_args := args
      global_tags := [] }
  store0.rules_by_name.foldl
    (fun st p =>
      if is_seed_rule p.2 then add_to_global_rules st p.2 args.input_substitutions else st)
    store0

/-- The store-mutating operations a run performs on a `RuleStore`. -/
inductive RSOp : Type
  | addTags (env : Env)
  | addRule (rule : Rule) (env : Env)
  | runQuery (query_str : String)

/-- Apply one operation to the store. -/
def applyOp (s : RuleStore) : RSOp → RuleStore
  | RSOp.addTags env => add_global_tags s env
  | RSOp.addRule r env => add_to_global_rules s r env
  | RSOp.runQuery qs => (query s qs).2

/-- Apply a sequence of operations to the store. -/
def applyOps (s : RuleStore) (ops : List RSOp) : RuleStore :=
  ops.foldl applyOp s

/-! ### Association-list lemmas -/

theorem alookup_append {α : Type} (m l : List (String × α)) (k : String) :
    alookup (m ++ l) k = ((alookup m k).map some).getD (alookup l k) := by
  induction m with
  | nil => simp [alookup]
  | cons a rest ih =>
    cases h : a.1 == k <;> simp [alookup, h, ih]

theorem any_key_iff {α : Type} (m : List (String × α)) (k : String) :
    m.any (fun p => p.1 == k) = true ↔ k ∈ akeys m := by
  simp [akeys, List.any_eq_true, List.mem_map]

theorem alookup_isSome_iff_mem {α : Type} (m : List (String × α)) (k : String) :
    (alookup m k).isSome = true ↔ k ∈ akeys m := by
  induction m with
  | nil => simp [alookup, akeys]
  | cons a rest ih =>
    cases h : a.1 == k
    · have hne : a.1 ≠ k := by simpa using h
      rw [show akeys (a :: rest) = a.1 :: akeys rest from rfl]
      simp [alookup, h, ih, Ne.symm hne]
    · have he : a.1 = k := by simpa using h
      rw [show akeys (a :: rest) = a.1 :: akeys rest from rfl]
      simp [alookup, h, he]

theorem alookup_eq_none_of_not_mem {α : Type} {m : List (String × α)} {k : String}
    (h : k ∉ akeys m) : alookup m k = none := by
  have hiff := alookup_isSome_iff_mem m k
  cases ha : alookup m k
  · rfl
  · rw [ha] at hiff
    simp at hiff
    exact absurd hiff h

theorem alookup_map_abstract {α : Type} (k : String) (f : Option α → α) (k' : String)
    (g : String × α → String × α)
    (hg : ∀ p : String × α, g p = if p.1 == k then (p.1, f (some p.2)) else p)
    (m : List (String × α)) :
    alookup (m.map g) k'
      = if k' = k then (alookup m k).map (fun v => f (some v)) else alookup m k' := by
  induction m with
  | nil => by_cases hk : k' = k <;> simp [alookup, hk]
  | cons a rest ih =>
    obtain ⟨a1, a2⟩ := a
    rw [List.map_cons]
    by_cases hak : a1 = k
    · subst hak
      have hga : g (a1, a2) = (a1, f (some a2)) := by rw [hg]; simp
      rw [hga]
      by_cases hk' : k' = a1
      · subst hk'
        simp [alookup, ih]
      · have hb : (a1 == k') = false := by
          simp only [beq_eq_false_iff_ne, ne_eq]
          exact fun he => hk' he.symm
        simp [alookup, hb, hk', ih]
    · have hb : (a1 == k) = false := by
        simp only [beq_eq_false_iff_ne, ne_eq]
        exact hak
      have hga : g (a1, a2) = (a1, a2) := by rw [hg]; simp [hb]
      rw [hga]
      by_cases hk' : k' = k
      · subst hk'
        have hb2 : (a1 == k') = false := hb
        simp [alookup, hb, hb2, ih]
      · cases hb2 : a1 == k' <;> simp [alookup, hb, hb2, ih, hk']

theorem alookup_map_upd {α : Type} (m : List (String × α)) (k : String) (f : Option α → α)
    (k' : String) :
    alookup (m.map (fun p => if p.1 == k then (p.1, f (some p.2)) else p)) k'
      = if k' = k then (alookup m k).map (fun v => f (some v)) else alookup m k' :=
  alookup_map_abstract k f k' _ (fun _ => rfl) m

theorem alookup_aupsert {α : Type} (m : List (String × α)) (k : String) (f : Option α → α)
    (k' : String) :
    alookup (aupsert m k f) k' = if k' = k then some (f (alookup m k)) else alookup m k' := by
  unfold aupsert
  cases hany : m.any (fun p => p.1 == k)
  · simp only [Bool.false_eq_true, if_false]
    have hnm : k ∉ akeys m := fun hmem => by
      rw [← any_key_iff] at hmem
      rw [hany] at hmem
      exact Bool.false_ne_true hmem
    have hnone : alookup m k = none := alookup_eq_none_of_not_mem hnm
    rw [alookup_append]
    by_cases hk : k' = k
    · subst hk
      simp [hnone, alookup]
    · have hb : (k == k') = false := by
        simp only [beq_eq_false_iff_ne, ne_eq]
        exact fun he => hk he.symm
      simp only [hk, if_false]
      cases ha : alookup m k' <;> simp [ha, alookup, hb]
  · simp only [if_true]
    rw [alookup_map_upd]
    by_cases hk : k' = k
    · subst hk
      have hmem : k' ∈ akeys m := (any_key_iff m k').mp hany
      have hs := (alookup_isSome_iff_mem m k').mpr hmem
      cases ha : alookup m k'
      · rw [ha] at hs
        simp at hs
      · simp [ha]
    · simp [hk]

theorem akeys_aupsert_mem {α : Type} (m : List (String × α)) (k : String) (f : Option α → α)
    (k' : String) :
    k' ∈ akeys (aupsert m k f) ↔ k' ∈ akeys m ∨ k' = k := by
  have h1 := alookup_isSome_iff_mem (aupsert m k f) k'
  have h2 := alookup_isSome_iff_mem m k'
  rw [← h1, ← h2, alookup_aupsert]
  by_cases hk : k' = k
  · simp [hk]
  · simp [hk]

theorem akeys_grow_aupsert {α : Type} {m : List (String × α)} {k' : String}
    (k : String) (f : Option α → α) (h : k' ∈ akeys m) :
    k' ∈ akeys (aupsert m k f) :=
  (akeys_aupsert_mem m k f k').mpr (Or.inl h)

theorem alookup_ainsert {α : Type} (m : List (String × α)) (k : String) (v : α) (k' : String) :
    alookup (ainsert m k v) k' = if k' = k then some v else alookup m k' := by
  unfold ainsert
  rw [alookup_aupsert]

theorem akeys_ainsert_mem {α : Type} (m : List (String × α)) (k : String) (v : α)
    (k' : String) :
    k' ∈ akeys (ainsert m k v) ↔ k' ∈ akeys m ∨ k' = k :=
  akeys_aupsert_mem m k (fun _ => v) k'

theorem envExtend_cons (m : Env) (a : String × String) (rest : Env) :
    envExtend m (a :: rest) = envExtend (ainsert m a.1 a.2) rest :=
  rfl

theorem alookup_envExtend (new : Env) (m : Env) (k : String)
    (hnd : (akeys new).Nodup) :
    alookup (envExtend m new) k = ((alookup new k).map some).getD (alookup m k) := by
  induction new generalizing m with
  | nil => simp [envExtend, alookup]
  | cons a rest ih =>
    obtain ⟨k1, v1⟩ := a
    have hcons : akeys ((k1, v1) :: rest) = k1 :: akeys rest := rfl
    rw [hcons] at hnd
    have hnd' : (akeys rest).Nodup := hnd.of_cons
    have hk1 : k1 ∉ akeys rest := by
      intro hmem
      exact (List.nodup_cons.mp hnd).1 hmem
    rw [envExtend_cons, ih (ainsert m k1 v1) hnd']
    by_cases hk : k = k1
    · subst hk
      have hnone : alookup rest k = none := alookup_eq_none_of_not_mem hk1
      simp [hnone, alookup, alookup_ainsert]
    · have hb : (k1 == k) = false := by
        simp only [beq_eq_false_iff_ne, ne_eq]
        exact fun he => hk he.symm
      cases ha : alookup rest k <;> simp [ha, alookup, hb, alookup_ainsert, hk]

theorem akeys_envExtend_mem (new : Env) (m : Env) (k : String) :
    k ∈ akeys (envExtend m new) ↔ k ∈ akeys m ∨ k ∈ akeys new := by
  induction new generalizing m with
  | nil => simp [envExtend, akeys]
  | cons a rest ih =>
    obtain ⟨k1, v1⟩ := a
    rw [envExtend_cons, ih (ainsert m k1 v1)]
    rw [show akeys ((k1, v1) :: rest) = k1 :: akeys rest from rfl]
    rw [akeys_ainsert_mem]
    simp [or_assoc, List.mem_cons]

theorem alookup_filter_key {α : Type} (p : String → Bool) (m : List (String × α))
    (k : String) :
    alookup (m.filter (fun e => p e.1)) k = if p k then alookup m k else none := by
  induction m with
  | nil => cases hp : p k <;> simp [alookup, hp]
  | cons a rest ih =>
    obtain ⟨a1, a2⟩ := a
    rw [List.filter_cons]
    cases hak : a1 == k
    · cases hpa : p a1 <;> simp [alookup, hak, hpa, ih]
    · have he : a1 = k := by simpa using hak
      subst he
      cases hpa : p a1 <;> simp [alookup, hak, hpa, ih]

theorem akeys_filter_mem {α : Type} (p : String → Bool) (m : List (String × α))
    (k : String) :
    k ∈ akeys (m.filter (fun e => p e.1)) ↔ p k = true ∧ k ∈ akeys m := by
  rw [← alookup_isSome_iff_mem, ← alookup_isSome_iff_mem, alookup_filter_key]
  cases hp : p k <;> simp

theorem akeys_filter {α : Type} (p : String → Bool) (m : List (String × α)) :
    akeys (m.filter (fun e => p e.1)) = (akeys m).filter p := by
  induction m with
  | nil => rfl
  | cons a rest ih =>
    simp only [akeys] at ih ⊢
    rw [List.filter_cons, List.map_cons, List.filter_cons]
    cases hpa : p a.1 <;> simp [hpa, ih]

theorem alookup_filter_strStarts (pre : String) (m : Env) (k : String) :
    alookup (m.filter (fun e => strStarts e.1 pre)) k
      = if strStarts k pre then alookup m k else none :=
  alookup_filter_key (fun x => strStarts x pre) m k

theorem akeys_filter_strStarts_mem (pre : String) (m : Env) (k : String) :
    k ∈ akeys (m.filter (fun e => strStarts e.1 pre)) ↔
      strStarts k pre = true ∧ k ∈ akeys m :=
  akeys_filter_mem (fun x => strStarts x pre) m k

theorem akeys_filter_strStarts (pre : String) (m : Env) :
    akeys (m.filter (fun e => strStarts e.1 pre))
      = (akeys m).filter (fun x => strStarts x pre) :=
  akeys_filter (fun x => strStarts x pre) m

theorem alookup_envExtend_not_mem (new : Env) (m : Env) (k : String)
    (h : k ∉ akeys new) :
    alookup (envExtend m new) k = alookup m k := by
  induction new generalizing m with
  | nil => rfl
  | cons a rest ih =>
    obtain ⟨k1, v1⟩ := a
    rw [show akeys ((k1, v1) :: rest) = k1 :: akeys rest from rfl] at h
    simp only [List.mem_cons, not_or] at h
    rw [envExtend_cons, ih (ainsert m k1 v1) h.2, alookup_ainsert, if_neg h.1]

theorem alookup_append_left {α : Type} {m : List (String × α)} {k : String} {v : α}
    (l : List (String × α)) (h : alookup m k = some v) :
    alookup (m ++ l) k = some v := by
  rw [alookup_append, h]
  rfl

/-! ### Concrete fixtures used by the witnesses and counterexamples -/

/-- Arguments with no input substitutions and global tag prefix `@`. -/
def args0 : PiranhaArguments := { input_substitutions := [], global_tag_pre := "@" }

/-- A store with no rules, no tags and an empty cache. -/
def baseStore : RuleStore :=
  { rule_graph := []
    rule_query_cache := []
    rules_by_name := []
    global_rules := []
    scopes := []
    piranha_args := args0
    global_tags := [] }

/-- A store binding the tag `@k` both in the input substitutions (to
`"a"`) and in the global tags (to `"b"`). -/
def c1store : RuleStore :=
  { baseStore with
    piranha_args := { input_substitutions := [("@k", "a")], global_tag_pre := "@" }
    global_tags := [("@k", "b")] }

/-- C1, counterexample: `default_substitutions` binds a tag present in
both layers to the global-tag value, not to the input-substitution
value, because `extend` overwrites — refuting "the input substitutions
take precedence". -/
theorem c1_counterexample :
    alookup c1store.piranha_args.input_substitutions "@k" = some "a" ∧
    alookup c1store.global_tags "@k" = some "b" ∧
    alookup (default_substitutions c1store) "@k" = some "b" ∧
    (some "b" : Option String) ≠ some "a" := by
  refine ⟨rfl, rfl, rfl, ?_⟩
  decide

/-- C1, amended: in `default_substitutions` the *global tags* take
precedence — every tag bound in `global_tags` keeps its global-tag value
in the returned environment (latest layer wins, since `extend`
overwrites the input substitutions). -/
theorem c1_global_tags_take_precedence (s : RuleStore) (k v : String)
    (hnd : (akeys s.global_tags).Nodup)
    (h : alookup s.global_tags k = some v) :
    alookup (default_substitutions s) k = some v := by
  unfold default_substitutions
  rw [alookup_envExtend _ _ _ hnd, h]
  rfl

/-- C1, witness for the amended theorem at the concrete store. -/
theorem c1_witness : alookup (default_substitutions c1store) "@k" = some "b" :=
  c1_global_tags_take_precedence c1store "@k" "b" (by decide) rfl

/-- A seed rule whose query contains the hole `@x`, which the empty
input substitutions leave unbound. -/
def seedHoleRule : Rule :=
  { name := "s", query := [Segment.hole "x"], replace := [], groups := ["seed"],
    filters := [] }

/-- C6, counterexample: a seed rule whose instantiation fails with an
unbound hole is *silently omitted* from the global worklist —
`RuleStore::new` returns normally with an empty worklist instead of the
run aborting (the `if let Ok(..)` in `add_to_global_rules` drops the
error). -/
theorem c6_counterexample :
    try_instantiate seedHoleRule args0.input_substitutions = none ∧
    is_seed_rule seedHoleRule = true ∧
    (ruleStoreNew args0 [] [seedHoleRule] [] []).global_rules = [] := by
  exact ⟨rfl, rfl, rfl⟩

/-- C6, amended: when instantiating a rule fails with an unbound hole,
`add_to_global_rules` leaves the store unchanged — the seed rule is
silently omitted from the global worklist and the failure is not fatal. -/
theorem c6_unbound_seed_silently_skipped (s : RuleStore) (rule : Rule) (env : Env)
    (h : try_instantiate rule env = none) :
    add_to_global_rules s rule env = s := by
  unfold add_to_global_rules
  rw [h]

/-- C6, witness for the amended theorem at the concrete failing rule. -/
theorem c6_witness :
    try_instantiate seedHoleRule [] = none ∧
    add_to_global_rules baseStore seedHoleRule [] = baseStore :=
  ⟨rfl, c6_unbound_seed_silently_skipped baseStore seedHoleRule [] rfl⟩

/-- C8: `add_global_tags` filters by the configured global prefix — a
key lacking the prefix keeps its old binding (no such entry is ever
added, and absent keys stay absent), the keys afterwards are exactly the
old keys plus the prefixed keys of the input, and every prefixed entry
of the input is merged in. -/
theorem c8_add_global_tags_filters (s : RuleStore) (new_entries : Env) (k : String) :
    (strStarts k s.piranha_args.global_tag_pre = false →
      alookup (add_global_tags s new_entries).global_tags k = alookup s.global_tags k) ∧
    (k ∈ akeys (add_global_tags s new_entries).global_tags ↔
      k ∈ akeys s.global_tags ∨
        (strStarts k s.piranha_args.global_tag_pre = true ∧ k ∈ akeys new_entries)) ∧
    ((akeys new_entries).Nodup →
      ∀ v, strStarts k s.piranha_args.global_tag_pre = true →
        alookup new_entries k = some v →
        alookup (add_global_tags s new_entries).global_tags k = some v) := by
  refine ⟨?_, ?_, ?_⟩
  · intro hp
    unfold add_global_tags
    refine alookup_envExtend_not_mem _ _ _ ?_
    rw [akeys_filter_strStarts_mem]
    rintro ⟨hp2, _⟩
    rw [hp] at hp2
    exact Bool.false_ne_true hp2
  · unfold add_global_tags
    rw [akeys_envExtend_mem, akeys_filter_strStarts_mem]
  · intro hnd v hp hv
    unfold add_global_tags
    have hndf : (akeys (new_entries.filter
        (fun e => strStarts e.1 s.piranha_args.global_tag_pre))).Nodup := by
      rw [akeys_filter_strStarts]
      exact hnd.filter _
    rw [alookup_envExtend _ _ _ hndf, alookup_filter_strStarts, hp, if_pos rfl, hv]
    rfl

/-- C8, witness: at a concrete store, a non-prefixed key is not added
and a prefixed entry is merged with its value. -/
theorem c8_witness :
    alookup (add_global_tags baseStore [("@g", "1"), ("x", "2")]).global_tags "x" = none ∧
    alookup (add_global_tags baseStore [("@g", "1"), ("x", "2")]).global_tags "@g"
      = some "1" := by
  constructor
  · have h := (c8_add_global_tags_filters baseStore [("@g", "1"), ("x", "2")] "x").1
    rw [h (by decide)]
    rfl
  · exact (c8_add_global_tags_filters baseStore [("@g", "1"), ("x", "2")] "@g").2.2
      (by decide) "1" (by decide) rfl

/-- C10: `get_scope_query_generators` is total — when no loaded scope
generator is named `scope_level` it returns the empty list, and when the
first generator named `scope_level` is `sg` it returns exactly
`sg.rules`. -/
theorem c10_scope_generators_total (s : RuleStore) (scope_level : String) :
    ((∀ sg ∈ s.scopes, sg.name ≠ scope_level) →
      get_scope_query_generators s scope_level = []) ∧
    (∀ sg, s.scopes.find? (fun level => level.name == scope_level) = some sg →
      get_scope_query_generators s scope_level = sg.rules) := by
  constructor
  · intro hnone
    unfold get_scope_query_generators
    have hfind : s.scopes.find? (fun level => level.name == scope_level) = none := by
      rw [List.find?_eq_none]
      intro x hx
      simp [hnone x hx]
    rw [hfind]
    rfl
  · intro sg hfind
    unfold get_scope_query_generators
    rw [hfind]
    rfl

/-- Two scope generators sharing the name `m`, to pin down that the
first one wins. -/
def scopeStore : RuleStore :=
  { baseStore with
    scopes := [⟨"m", [⟨"q1", "s1"⟩]⟩, ⟨"m", [⟨"q2", "s2"⟩]⟩] }

/-- C10, witness: an unknown scope name yields `[]`, and a name carried
by two generators yields the rules of the first. -/
theorem c10_witness :
    get_scope_query_generators scopeStore "zzz" = [] ∧
    get_scope_query_generators scopeStore "m" = [⟨"q1", "s1"⟩] := by
  constructor
  · exact (c10_scope_generators_total scopeStore "zzz").1 (by decide)
  · exact (c10_scope_generators_total scopeStore "m").2 ⟨"m", [⟨"q1", "s1"⟩]⟩ (by decide)

/-! ### Effect of each store operation on the store's fields -/

theorem add_to_global_rules_parts (s : RuleStore) (rule : Rule) (env : Env) :
    (add_to_global_rules s rule env).global_tags = s.global_tags ∧
    (add_to_global_rules s rule env).rule_query_cache = s.rule_query_cache ∧
    (add_to_global_rules s rule env).piranha_args = s.piranha_args ∧
    (add_to_global_rules s rule env).rules_by_name = s.rules_by_name ∧
    (∃ t, (add_to_global_rules s rule env).global_rules = s.global_rules ++ t) := by
  cases h : try_instantiate rule env with
  | none =>
    simp only [add_to_global_rules, h]
    exact ⟨by simp, by simp, by simp, by simp, [], by simp⟩
  | some r =>
    cases hc : s.global_rules.contains r
    · simp only [add_to_global_rules, h]
      rw [if_neg (by rw [hc]; exact Bool.false_ne_true)]
      exact ⟨by simp, by simp, by simp, by simp, [r], by simp⟩
    · simp only [add_to_global_rules, h]
      rw [if_pos hc]
      exact ⟨by simp, by simp, by simp, by simp, [], by simp⟩

theorem applyOp_state (s : RuleStore) (op : RSOp) :
    (∀ k, k ∈ akeys s.global_tags → k ∈ akeys (applyOp s op).global_tags) ∧
    (∃ t, (applyOp s op).global_rules = s.global_rules ++ t) ∧
    (∀ k v, alookup s.rule_query_cache k = some v →
      alookup (applyOp s op).rule_query_cache k = some v) := by
  cases op with
  | addTags env =>
    simp only [applyOp]
    refine ⟨?_, ⟨[], ?_⟩, fun k v hv => hv⟩
    · intro k hk
      exact (akeys_envExtend_mem _ _ _).mpr (Or.inl hk)
    · simp [add_global_tags]
  | addRule r env =>
    obtain ⟨ht, hc, _, _, hg⟩ := add_to_global_rules_parts s r env
    refine ⟨?_, hg, ?_⟩
    · intro k hk
      show k ∈ akeys (add_to_global_rules s r env).global_tags
      rw [ht]
      exact hk
    · intro k v hv
      show alookup (add_to_global_rules s r env).rule_query_cache k = some v
      rw [hc]
      exact hv
  | runQuery qs =>
    simp only [applyOp, query]
    cases h : alookup s.rule_query_cache qs with
    | some q => exact ⟨fun k hk => hk, ⟨[], by simp⟩, fun k v hv => hv⟩
    | none => exact ⟨fun k hk => hk, ⟨[], by simp⟩, fun k v hv => alookup_append_left _ hv⟩

theorem applyOps_state (s : RuleStore) (ops : List RSOp) :
    (∀ k, k ∈ akeys s.global_tags → k ∈ akeys (applyOps s ops).global_tags) ∧
    (∃ t, (applyOps s ops).global_rules = s.global_rules ++ t) ∧
    (∀ k v, alookup s.rule_query_cache k = some v →
      alookup (applyOps s ops).rule_query_cache k = some v) := by
  induction ops generalizing s with
  | nil => exact ⟨fun k hk => hk, ⟨[], by simp [applyOps]⟩, fun k v hv => hv⟩
  | cons op rest ih =>
    obtain ⟨h1, ⟨t1, h2⟩, h3⟩ := applyOp_state s op
    obtain ⟨g1, ⟨t2, g2⟩, g3⟩ := ih (applyOp s op)
    refine ⟨fun k hk => g1 k (h1 k hk), ⟨t1 ++ t2, ?_⟩, fun k v hv => g3 k v (h3 k v hv)⟩
    show (applyOps (applyOp s op) rest).global_rules = _
    rw [g2, h2, List.append_assoc]

/-- The store after recording the global tag `@x ↦ v1`. -/
def c2s1 : RuleStore := add_global_tags baseStore [("@x", "v1")]

/-- The same store after a later `add_global_tags` that rebinds `@x`. -/
def c2s2 : RuleStore := add_global_tags c2s1 [("@x", "v2")]

/-- C2, counterexample: a later `add_global_tags` call *does* rebind an
existing `global_tags` key to a different value (`extend` overwrites),
refuting the no-rebinding part of the claim. -/
theorem c2_counterexample :
    alookup c2s1.global_tags "@x" = some "v1" ∧
    alookup c2s2.global_tags "@x" = some "v2" ∧
    (some "v1" : Option String) ≠ some "v2" := by
  refine ⟨rfl, rfl, ?_⟩
  decide

/-- C2, amended: over every sequence of store operations the
`global_tags` key set only grows (no key is ever removed) and
`global_rules` only grows by appending (no rule is ever removed); an
existing `global_tags` key *can* however be rebound to a different value
by a later `add_global_tags` call. -/
theorem c2_globals_grow (s : RuleStore) (ops : List RSOp) :
    (∀ k, k ∈ akeys s.global_tags → k ∈ akeys (applyOps s ops).global_tags) ∧
    (∃ t, (applyOps s ops).global_rules = s.global_rules ++ t) :=
  ⟨(applyOps_state s ops).1, (applyOps_state s ops).2.1⟩

/-- C2, witness: the key `@x` survives a later tag addition. -/
theorem c2_witness :
    "@x" ∈ akeys (applyOps c2s1 [RSOp.addTags [("@y", "3")]]).global_tags :=
  (c2_globals_grow c2s1 [RSOp.addTags [("@y", "3")]]).1 "@x" (by decide)

/-- C9: the query cache is fill-once and never evicted — a hit returns
the cached compiled query with the store unchanged, a miss compiles the
string and appends it to the cache, and a cached entry survives every
later store operation unchanged. -/
theorem c9_query_cache_fill_once (s : RuleStore) (query_str : String) :
    (∀ q, alookup s.rule_query_cache query_str = some q → query s query_str = (q, s)) ∧
    (alookup s.rule_query_cache query_str = none →
      query s query_str =
        (create_query query_str,
         { s with rule_query_cache :=
             s.rule_query_cache ++ [(query_str, create_query query_str)] })) ∧
    (∀ ops k v, alookup s.rule_query_cache k = some v →
      alookup (applyOps s ops).rule_query_cache k = some v) := by
  refine ⟨?_, ?_, fun ops k v hv => (applyOps_state s ops).2.2 k v hv⟩
  · intro q hq
    unfold query
    rw [hq]
  · intro hq
    unfold query
    rw [hq]

/-- C9, witness: a concrete miss then a hit on the same string, and
survival of the entry across another operation. -/
theorem c9_witness :
    query baseStore "(q)" =
      (create_query "(q)",
       { baseStore with rule_query_cache := [("(q)", create_query "(q)")] }) ∧
    query (query baseStore "(q)").2 "(q)" = (create_query "(q)", (query baseStore "(q)").2) ∧
    alookup (applyOps (query baseStore "(q)").2
      [RSOp.addTags [("@a", "1")]]).rule_query_cache "(q)" = some (create_query "(q)") := by
  refine ⟨?_, ?_, ?_⟩
  · exact (c9_query_cache_fill_once baseStore "(q)").2.1 rfl
  · exact (c9_query_cache_fill_once (query baseStore "(q)").2 "(q)").1 (create_query "(q)") rfl
  · exact (c9_query_cache_fill_once (query baseStore "(q)").2 "(q)").2.2
      [RSOp.addTags [("@a", "1")]] "(q)" (create_query "(q)") rfl

/-- C4: when instantiation succeeds, `add_to_global_rules` appends the
instantiated rule iff it is not already in the worklist, and calling it
twice with the same rule and captures leaves exactly one copy. -/
theorem c4_add_global_dedup (s : RuleStore) (rule : Rule) (env : Env) (r : Rule)
    (h : try_instantiate rule env = some r) :
    (r ∈ s.global_rules → add_to_global_rules s rule env = s) ∧
    (r ∉ s.global_rules →
      (add_to_global_rules s rule env).global_rules = s.global_rules ++ [r]) ∧
    (r ∉ s.global_rules →
      ((add_to_global_rules (add_to_global_rules s rule env) rule env).global_rules).count r
        = 1) := by
  have hmem : ∀ (st : RuleStore), r ∈ st.global_rules →
      add_to_global_rules st rule env = st := by
    intro st hin
    have hc : st.global_rules.contains r = true := by
      simp [List.contains, hin]
    simp only [add_to_global_rules, h]
    rw [if_pos hc]
  have happ : ∀ (st : RuleStore), r ∉ st.global_rules →
      (add_to_global_rules st rule env).global_rules = st.global_rules ++ [r] := by
    intro st hnotin
    have hc : st.global_rules.contains r = false := by
      simp [List.contains, hnotin]
    simp only [add_to_global_rules, h]
    rw [if_neg (by rw [hc]; exact Bool.false_ne_true)]
  refine ⟨hmem s, happ s, ?_⟩
  intro hnotin
  have h1 := happ s hnotin
  have hin2 : r ∈ (add_to_global_rules s rule env).global_rules := by
    rw [h1]
    exact List.mem_append_right _ (List.mem_singleton.mpr rfl)
  rw [hmem _ hin2, h1, List.count_append]
  have hz : s.global_rules.count r = 0 := List.count_eq_zero.mpr hnotin
  rw [hz]
  simp [List.count_cons]

/-- A hole-free rule used to exercise the global-worklist dedup. -/
def plainRule : Rule :=
  { name := "r1", query := [Segment.lit "(q)"], replace := [Segment.lit "x"],
    groups := [], filters := [] }

/-- C4, witness: adding the same rule twice under the same captures at a
concrete empty store leaves exactly one copy. -/
theorem c4_witness :
    (add_to_global_rules baseStore plainRule []).global_rules = [plainRule] ∧
    ((add_to_global_rules (add_to_global_rules baseStore plainRule [])
        plainRule []).global_rules).count plainRule = 1 := by
  have h := c4_add_global_dedup baseStore plainRule [] plainRule rfl
  exact ⟨h.2.1 (by decide), h.2.2 (by decide)⟩

/-! ### Seeding at store construction -/

theorem mem_add_to_global_rules (s : RuleStore) (rule : Rule) (env : Env) (x : Rule) :
    x ∈ (add_to_global_rules s rule env).global_rules ↔
      x ∈ s.global_rules ∨ try_instantiate rule env = some x := by
  cases h : try_instantiate rule env with
  | none =>
    simp only [add_to_global_rules, h]
    simp
  | some r =>
    cases hc : s.global_rules.contains r
    · simp only [add_to_global_rules, h]
      rw [if_neg (by rw [hc]; exact Bool.false_ne_true)]
      simp [List.mem_append, eq_comm]
    · simp only [add_to_global_rules, h]
      rw [if_pos hc]
      have hmem : r ∈ s.global_rules := by
        have hc2 := hc
        simp [List.contains] at hc2
        exact hc2
      constructor
      · exact Or.inl
      · rintro (hx | hx)
        · exact hx
        · simp only [Option.some.injEq] at hx
          subst hx
          exact hmem

theorem seed_fold_mem (env : Env) (l : List (String × Rule)) (st : RuleStore) (x : Rule) :
    x ∈ (l.foldl
          (fun st p => if is_seed_rule p.2 then add_to_global_rules st p.2 env else st)
          st).global_rules ↔
      x ∈ st.global_rules ∨
        ∃ p ∈ l, is_seed_rule p.2 = true ∧ try_instantiate p.2 env = some x := by
  induction l generalizing st with
  | nil => simp
  | cons a rest ih =>
    rw [List.foldl_cons]
    cases hs : is_seed_rule a.2
    · rw [if_neg Bool.false_ne_true, ih]
      constructor
      · rintro (hx | ⟨p, hp, hps, hpi⟩)
        · exact Or.inl hx
        · exact Or.inr ⟨p, List.mem_cons_of_mem a hp, hps, hpi⟩
      · rintro (hx | ⟨p, hp, hps, hpi⟩)
        · exact Or.inl hx
        · rcases List.mem_cons.mp hp with he | hp2
          · subst he
            rw [hs] at hps
            exact absurd hps Bool.false_ne_true
          · exact Or.inr ⟨p, hp2, hps, hpi⟩
    · rw [if_pos rfl, ih, mem_add_to_global_rules]
      constructor
      · rintro ((hx | hx) | ⟨p, hp, hps, hpi⟩)
        · exact Or.inl hx
        · exact Or.inr ⟨a, List.mem_cons_self a rest, hs, hx⟩
        · exact Or.inr ⟨p, List.mem_cons_of_mem a hp, hps, hpi⟩
      · rintro (hx | ⟨p, hp, hps, hpi⟩)
        · exact Or.inl (Or.inl hx)
        · rcases List.mem_cons.mp hp with he | hp2
          · subst he
            exact Or.inl (Or.inr hpi)
          · exact Or.inr ⟨p, hp2, hps, hpi⟩

theorem ainsert_not_mem {α : Type} (m : List (String × α)) (k : String) (v : α)
    (h : k ∉ akeys m) : ainsert m k v = m ++ [(k, v)] := by
  unfold ainsert aupsert
  rw [if_neg (fun hany => h ((any_key_iff m k).mp hany))]

theorem build_fold_eq (rules : List Rule) :
    ∀ acc : List (String × Rule),
      (rules.map Rule.name).Nodup → (∀ r ∈ rules, r.name ∉ akeys acc) →
      rules.foldl (fun m r => ainsert m r.name r) acc
        = acc ++ rules.map (fun r => (r.name, r)) := by
  induction rules with
  | nil =>
    intro acc _ _
    simp
  | cons r0 rest ih =>
    intro acc hnd hdisj
    rw [List.foldl_cons, ainsert_not_mem acc r0.name r0 (hdisj r0 (List.mem_cons_self r0 rest))]
    rw [List.map_cons] at hnd
    have hnotin0 : r0.name ∉ rest.map Rule.name := (List.nodup_cons.mp hnd).1
    have hdisj2 : ∀ r ∈ rest, r.name ∉ akeys (acc ++ [(r0.name, r0)]) := by
      intro r hr
      rw [show akeys (acc ++ [(r0.name, r0)]) = akeys acc ++ [r0.name] from by simp [akeys]]
      simp only [List.mem_append, List.mem_singleton]
      rintro (hmem | heq)
      · exact hdisj r (List.mem_cons_of_mem r0 hr) hmem
      · exact hnotin0 (heq ▸ List.mem_map_of_mem Rule.name hr)
    rw [ih (acc ++ [(r0.name, r0)]) (List.nodup_cons.mp hnd).2 hdisj2]
    simp

/-- C3, counterexample: a rule read from `rules.toml` whose declared
groups do *not* include `seed` is nevertheless seeded, because
`read_config_files` adds every input rule to the seed rules group before
the store is built. -/
theorem c3_counterexample :
    is_seed_rule plainRule = false ∧
    (ruleStoreNew args0 [] [plainRule] [] []).global_rules
      = [add_to_seed_rules_group plainRule] :=
  ⟨rfl, rfl⟩

/-- C3, amended: a loaded rule is placed in the initial global worklist
iff its groups *after loading* contain `seed` and it instantiates
against the input substitutions — and every rule read from `rules.toml`
has `seed` added to its groups at load, so such rules are seeded
regardless of their declared groups. -/
theorem c3_input_rules_forced_seeded (args : PiranhaArguments)
    (language_rules input_rules : List Rule)
    (graph : List (String × List (String × String))) (scopes : List ScopeGenerator)
    (x : Rule)
    (hnd : ((config_rules language_rules input_rules).map Rule.name).Nodup) :
    x ∈ (ruleStoreNew args language_rules input_rules graph scopes).global_rules ↔
      ∃ r ∈ config_rules language_rules input_rules,
        is_seed_rule r = true ∧ try_instantiate r args.input_substitutions = some x := by
  have hbuild : (config_rules language_rules input_rules).foldl
        (fun m r => ainsert m r.name r) []
      = (config_rules language_rules input_rules).map (fun r => (r.name, r)) := by
    have hb := build_fold_eq (config_rules language_rules input_rules) [] hnd
      (by intro r _; simp [akeys])
    simpa using hb
  simp only [ruleStoreNew]
  rw [hbuild, seed_fold_mem]
  constructor
  · rintro (h0 | ⟨p, hp, hps, hpi⟩)
    · exact absurd h0 (List.not_mem_nil x)
    · rcases List.mem_map.mp hp with ⟨r, hr, he⟩
      subst he
      exact ⟨r, hr, hps, hpi⟩
  · rintro ⟨r, hr, hrs, hri⟩
    exact Or.inr ⟨(r.name, r), List.mem_map_of_mem _ hr, hrs, hri⟩

/-- C3, witness: the rules.toml rule with empty groups ends up in the
worklist of the concrete store, through the amended theorem. -/
theorem c3_witness :
    add_to_seed_rules_group plainRule
      ∈ (ruleStoreNew args0 [] [plainRule] [] []).global_rules :=
  (c3_input_rules_forced_seeded args0 [] [plainRule] [] []
      (add_to_seed_rules_group plainRule) (by decide)).mpr
    ⟨add_to_seed_rules_group plainRule, by decide, by decide, rfl⟩

/-! ### The scope map returned by get_next -/

theorem smLookup_collect (m : ScopeMap) (k : String) (v : Rule) (k' : String) :
    smLookup (collect m k v) k'
      = if k' = k then smLookup m k ++ [v] else smLookup m k' := by
  unfold smLookup collect
  rw [alookup_aupsert]
  by_cases hk : k' = k
  · subst hk
    simp
  · simp [hk]

theorem smLookup_smEnsure (m : ScopeMap) (k : String) (k' : String) :
    smLookup (smEnsure m k) k' = smLookup m k' := by
  unfold smLookup smEnsure
  rw [alookup_aupsert]
  by_cases hk : k' = k
  · subst hk
    cases h : alookup m k' <;> simp [h]
  · simp [hk]

theorem akeys_smEnsure_self (m : ScopeMap) (k : String) : k ∈ akeys (smEnsure m k) :=
  (akeys_aupsert_mem m k _ k).mpr (Or.inr rfl)

theorem akeys_smEnsure_mono {m : ScopeMap} {k' : String} (k : String)
    (h : k' ∈ akeys m) : k' ∈ akeys (smEnsure m k) :=
  akeys_grow_aupsert k _ h

/-- C7: for every store, fuel, rule name and captures, the map returned
by `get_next` contains the keys `Parent` and `Global`, so callers can
index those two scopes unconditionally. -/
theorem c7_parent_global_present (s : RuleStore) (fuel : Nat) (rule_name : String)
    (env : Env) :
    "Parent" ∈ akeys (get_next s fuel rule_name env) ∧
    "Global" ∈ akeys (get_next s fuel rule_name env) := by
  cases fuel with
  | zero =>
    simp only [get_next]
    exact ⟨akeys_smEnsure_mono "Global" (akeys_smEnsure_self [] "Parent"),
      akeys_smEnsure_self _ "Global"⟩
  | succ n =>
    simp only [get_next]
    exact ⟨akeys_smEnsure_mono "Global" (akeys_smEnsure_self _ "Parent"),
      akeys_smEnsure_self _ "Global"⟩

/-! ### Properties of template rendering and instantiation -/

theorem renderTemplate_nil_iff {env : Env} :
    ∀ {t t' : Template}, renderTemplate env t = some t' → (t' = [] ↔ t = []) := by
  intro t
  induction t with
  | nil =>
    intro t' h
    simp only [renderTemplate, Option.some.injEq] at h
    subst h
    simp
  | cons seg rest ih =>
    intro t' h
    cases seg with
    | lit str =>
      simp only [renderTemplate] at h
      cases hr : renderTemplate env rest with
      | none => rw [hr] at h; exact Option.noConfusion h
      | some r =>
        rw [hr] at h
        simp only [Option.map_some', Option.some.injEq] at h
        subst h
        simp
    | hole n =>
      simp only [renderTemplate] at h
      cases hv : alookup env n with
      | none => rw [hv] at h; exact Option.noConfusion h
      | some v =>
        cases hr : renderTemplate env rest with
        | none => rw [hv, hr] at h; exact Option.noConfusion h
        | some r =>
          rw [hv, hr] at h
          simp only [Option.some.injEq] at h
          subst h
          simp

theorem try_instantiate_is_dummy {r r' : Rule} {env : Env}
    (h : try_instantiate r env = some r') : is_dummy r' = is_dummy r := by
  unfold try_instantiate at h
  cases hq : renderTemplate env r.query with
  | none => rw [hq] at h; exact Option.noConfusion h
  | some q =>
    cases hrep : renderTemplate env r.replace with
    | none => rw [hq, hrep] at h; exact Option.noConfusion h
    | some rep =>
      cases hf : renderAll env r.filters with
      | none => rw [hq, hrep, hf] at h; exact Option.noConfusion h
      | some fs =>
        rw [hq, hrep, hf] at h
        simp only [Option.some.injEq] at h
        subst h
        have h1 := renderTemplate_nil_iff hq
        have h2 := renderTemplate_nil_iff hrep
        have e1 : q.isEmpty = r.query.isEmpty := by
          rw [Bool.eq_iff_iff, List.isEmpty_iff, List.isEmpty_iff]
          exact h1
        have e2 : rep.isEmpty = r.replace.isEmpty := by
          rw [Bool.eq_iff_iff, List.isEmpty_iff, List.isEmpty_iff]
          exact h2
        show (q.isEmpty && rep.isEmpty) = (r.query.isEmpty && r.replace.isEmpty)
        rw [e1, e2]

theorem is_dummy_instantiate (r : Rule) (env : Env) :
    is_dummy (instantiate r env) = is_dummy r := by
  unfold instantiate
  cases h : try_instantiate r env with
  | none => rfl
  | some r2 => exact try_instantiate_is_dummy h

theorem renderTemplate_stable {env : Env} :
    ∀ {t t' : Template}, renderTemplate env t = some t' →
      ∀ env2, renderTemplate env2 t' = some t' := by
  intro t
  induction t with
  | nil =>
    intro t' h env2
    simp only [renderTemplate, Option.some.injEq] at h
    subst h
    rfl
  | cons seg rest ih =>
    intro t' h env2
    cases seg with
    | lit str =>
      simp only [renderTemplate] at h
      cases hr : renderTemplate env rest with
      | none => rw [hr] at h; exact Option.noConfusion h
      | some r =>
        rw [hr] at h
        simp only [Option.map_some', Option.some.injEq] at h
        subst h
        simp [renderTemplate, ih hr env2]
    | hole n =>
      simp only [renderTemplate] at h
      cases hv : alookup env n with
      | none => rw [hv] at h; exact Option.noConfusion h
      | some v =>
        cases hr : renderTemplate env rest with
        | none => rw [hv, hr] at h; exact Option.noConfusion h
        | some r =>
          rw [hv, hr] at h
          simp only [Option.some.injEq] at h
          subst h
          simp [renderTemplate, ih hr env2, hv]

theorem renderAll_stable {env : Env} :
    ∀ {ts ts' : List Template}, renderAll env ts = some ts' →
      ∀ env2, renderAll env2 ts' = some ts' := by
  intro ts
  induction ts with
  | nil =>
    intro ts' h env2
    simp only [renderAll, Option.some.injEq] at h
    subst h
    rfl
  | cons t rest ih =>
    intro ts' h env2
    simp only [renderAll] at h
    cases ht : renderTemplate env t with
    | none => rw [ht] at h; exact Option.noConfusion h
    | some t2 =>
      cases hr : renderAll env rest with
      | none => rw [ht, hr] at h; exact Option.noConfusion h
      | some r =>
        rw [ht, hr] at h
        simp only [Option.some.injEq] at h
        subst h
        simp only [renderAll, renderTemplate_stable ht env2, ih hr env2]

theorem try_instantiate_stable {r r' : Rule} {env : Env}
    (h : try_instantiate r env = some r') (env2 : Env) :
    try_instantiate r' env2 = some r' := by
  unfold try_instantiate at h
  cases hq : renderTemplate env r.query with
  | none => rw [hq] at h; exact Option.noConfusion h
  | some q =>
    cases hrep : renderTemplate env r.replace with
    | none => rw [hq, hrep] at h; exact Option.noConfusion h
    | some rep =>
      cases hf : renderAll env r.filters with
      | none => rw [hq, hrep, hf] at h; exact Option.noConfusion h
      | some fs =>
        rw [hq, hrep, hf] at h
        simp only [Option.some.injEq] at h
        subst h
        unfold try_instantiate
        simp only [renderTemplate_stable hq env2, renderTemplate_stable hrep env2,
          renderAll_stable hf env2]

theorem instantiate_rendered {b b' : Rule} {env : Env}
    (h : try_instantiate b env = some b') (env2 : Env) :
    instantiate b' env2 = b' := by
  unfold instantiate
  rw [try_instantiate_stable h env2]
  rfl

/-! ### Dummy expansion in get_next -/

/-- The step `get_next` performs for one outgoing edge, as a named
function (definitionally equal to the fold body of `get_next`). -/
def gnStep (s : RuleStore) (fuel : Nat) (env : Env) (next_rules : ScopeMap)
    (edge : String × String) : ScopeMap :=
  match alookup s.rules_by_name edge.2 with
  | none => next_rules
  | some to_rule =>
    if is_dummy to_rule then
      (get_next s fuel edge.2 env).foldl
        (fun acc entry =>
          entry.2.foldl
            (fun acc2 r => collect acc2 entry.1 (instantiate r env)) acc)
        next_rules
    else
      collect next_rules edge.1 (instantiate to_rule env)

theorem get_next_succ (s : RuleStore) (n : Nat) (rule_name : String) (env : Env) :
    get_next s (n + 1) rule_name env
      = smEnsure (smEnsure
          ((get_neighbors s.rule_graph rule_name).foldl (gnStep s n env) [])
          "Parent") "Global" :=
  rfl

theorem gnStep_none (s : RuleStore) (fuel : Nat) (env : Env) (acc : ScopeMap)
    (sc toName : String) (h : alookup s.rules_by_name toName = none) :
    gnStep s fuel env acc (sc, toName) = acc := by
  simp only [gnStep, h]

theorem gnStep_nondummy (s : RuleStore) (fuel : Nat) (env : Env) (acc : ScopeMap)
    (sc toName : String) (to_rule : Rule)
    (h : alookup s.rules_by_name toName = some to_rule)
    (hnd : is_dummy to_rule = false) :
    gnStep s fuel env acc (sc, toName) = collect acc sc (instantiate to_rule env) := by
  simp only [gnStep, h]
  rw [if_neg (by rw [hnd]; exact Bool.false_ne_true)]

theorem gnStep_dummy (s : RuleStore) (fuel : Nat) (env : Env) (acc : ScopeMap)
    (sc toName : String) (d : Rule)
    (h : alookup s.rules_by_name toName = some d) (hdd : is_dummy d = true) :
    gnStep s fuel env acc (sc, toName)
      = (get_next s fuel toName env).foldl
          (fun acc2 entry =>
            entry.2.foldl
              (fun acc3 r => collect acc3 entry.1 (instantiate r env)) acc2)
          acc := by
  simp only [gnStep, h]
  rw [if_pos hdd]

theorem alookup_mem {α : Type} {m : List (String × α)} {k : String} {v : α}
    (h : alookup m k = some v) : (k, v) ∈ m := by
  induction m with
  | nil => exact Option.noConfusion h
  | cons p rest ih =>
    obtain ⟨p1, p2⟩ := p
    simp only [alookup] at h
    cases hb : (p1 == k)
    · rw [hb] at h
      simp only [Bool.false_eq_true, if_false] at h
      exact List.mem_cons_of_mem _ (ih h)
    · rw [hb] at h
      simp only [if_true, Option.some.injEq] at h
      have he : p1 = k := by simpa using hb
      subst he
      subst h
      exact List.mem_cons_self _ _

/-- Every rule in every entry of the scope map satisfies `P`. -/
def smAll (P : Rule → Prop) (m : ScopeMap) : Prop :=
  ∀ en ∈ m, ∀ x ∈ en.2, P x

theorem smAll_nil (P : Rule → Prop) : smAll P [] := by
  intro en hen
  exact absurd hen (List.not_mem_nil en)

theorem smAll_collect {P : Rule → Prop} {m : ScopeMap} (k : String) {v : Rule}
    (hm : smAll P m) (hv : P v) : smAll P (collect m k v) := by
  intro en hen x hx
  unfold collect aupsert at hen
  by_cases hany : m.any (fun p => p.1 == k) = true
  · rw [if_pos hany] at hen
    rcases List.mem_map.mp hen with ⟨e0, he0, heq⟩
    by_cases hek : (e0.1 == k) = true
    · rw [if_pos hek] at heq
      subst heq
      rcases List.mem_append.mp hx with h2 | h2
      · exact hm e0 he0 x h2
      · rw [List.mem_singleton.mp h2]
        exact hv
    · rw [if_neg hek] at heq
      subst heq
      exact hm e0 he0 x hx
  · rw [if_neg hany] at hen
    rcases List.mem_append.mp hen with h2 | h2
    · exact hm en h2 x hx
    · rw [List.mem_singleton.mp h2] at hx
      rcases List.mem_append.mp hx with h3 | h3
      · exact absurd h3 (List.not_mem_nil x)
      · rw [List.mem_singleton.mp h3]
        exact hv

theorem smAll_smEnsure {P : Rule → Prop} {m : ScopeMap} (k : String)
    (hm : smAll P m) : smAll P (smEnsure m k) := by
  intro en hen x hx
  unfold smEnsure aupsert at hen
  by_cases hany : m.any (fun p => p.1 == k) = true
  · rw [if_pos hany] at hen
    rcases List.mem_map.mp hen with ⟨e0, he0, heq⟩
    by_cases hek : (e0.1 == k) = true
    · rw [if_pos hek] at heq
      subst heq
      exact hm e0 he0 x hx
    · rw [if_neg hek] at heq
      subst heq
      exact hm e0 he0 x hx
  · rw [if_neg hany] at hen
    rcases List.mem_append.mp hen with h2 | h2
    · exact hm en h2 x hx
    · rw [List.mem_singleton.mp h2] at hx
      exact absurd hx (List.not_mem_nil x)

theorem smAll_foldl {β : Type} {P : Rule → Prop} (step : ScopeMap → β → ScopeMap) :
    ∀ l : List β, (∀ acc e, e ∈ l → smAll P acc → smAll P (step acc e)) →
      ∀ acc, smAll P acc → smAll P (l.foldl step acc) := by
  intro l
  induction l with
  | nil =>
    intro _ acc h
    exact h
  | cons e rest ih =>
    intro hstep acc hacc
    rw [List.foldl_cons]
    exact ih (fun acc2 e2 he2 h2 => hstep acc2 e2 (List.mem_cons_of_mem e he2) h2) _
      (hstep acc e (List.mem_cons_self e rest) hacc)

theorem get_next_no_dummy (s : RuleStore) (env : Env) :
    ∀ (fuel : Nat) (name : String),
      smAll (fun x => is_dummy x = false) (get_next s fuel name env) := by
  intro fuel
  induction fuel with
  | zero =>
    intro name
    simp only [get_next]
    exact smAll_smEnsure "Global" (smAll_smEnsure "Parent" (smAll_nil _))
  | succ n ih =>
    intro name
    rw [get_next_succ]
    refine smAll_smEnsure "Global" (smAll_smEnsure "Parent" ?_)
    refine smAll_foldl _ _ ?_ [] (smAll_nil _)
    intro acc e _ hacc
    obtain ⟨sc, toName⟩ := e
    cases hm : alookup s.rules_by_name toName with
    | none =>
      rw [gnStep_none _ _ _ _ _ _ hm]
      exact hacc
    | some to_rule =>
      cases hdum : is_dummy to_rule
      · rw [gnStep_nondummy _ _ _ _ _ _ _ hm hdum]
        refine smAll_collect sc hacc ?_
        rw [is_dummy_instantiate]
        exact hdum
      · rw [gnStep_dummy _ _ _ _ _ _ _ hm hdum]
        refine smAll_foldl _ _ ?_ acc hacc
        intro acc2 entry hentry hacc2
        refine smAll_foldl _ _ ?_ acc2 hacc2
        intro acc3 r2 hr2 hacc3
        refine smAll_collect entry.1 hacc3 ?_
        rw [is_dummy_instantiate]
        exact ih toName entry hentry r2 hr2

theorem collect_mono {x : Rule} {k : String} (m : ScopeMap) (k2 : String) (v : Rule)
    (h : x ∈ smLookup m k) : x ∈ smLookup (collect m k2 v) k := by
  rw [smLookup_collect]
  by_cases hk : k = k2
  · subst hk
    rw [if_pos rfl]
    exact List.mem_append_left _ h
  · rw [if_neg hk]
    exact h

theorem foldl_smLookup_mono {β : Type} (step : ScopeMap → β → ScopeMap) (x : Rule)
    (k : String)
    (hstep : ∀ acc e, x ∈ smLookup acc k → x ∈ smLookup (step acc e) k) :
    ∀ (l : List β) (acc : ScopeMap),
      x ∈ smLookup acc k → x ∈ smLookup (l.foldl step acc) k := by
  intro l
  induction l with
  | nil =>
    intro acc h
    exact h
  | cons e rest ih =>
    intro acc h
    rw [List.foldl_cons]
    exact ih _ (hstep acc e h)

theorem foldl_smLookup_adds {β : Type} (step : ScopeMap → β → ScopeMap) (x : Rule)
    (k : String)
    (hstep : ∀ acc e, x ∈ smLookup acc k → x ∈ smLookup (step acc e) k) (e0 : β)
    (hadd : ∀ acc, x ∈ smLookup (step acc e0) k) :
    ∀ l : List β, e0 ∈ l → ∀ acc, x ∈ smLookup (l.foldl step acc) k := by
  intro l
  induction l with
  | nil =>
    intro h
    exact absurd h (List.not_mem_nil e0)
  | cons e rest ih =>
    intro he0 acc
    rw [List.foldl_cons]
    rcases List.mem_cons.mp he0 with he | hmem
    · subst he
      exact foldl_smLookup_mono step x k hstep rest _ (hadd acc)
    · exact ih hmem _

theorem gnStep_mono (s : RuleStore) (fuel : Nat) (env : Env) (x : Rule) (k : String) :
    ∀ (acc : ScopeMap) (e : String × String),
      x ∈ smLookup acc k → x ∈ smLookup (gnStep s fuel env acc e) k := by
  intro acc e h
  obtain ⟨sc, toName⟩ := e
  cases hm : alookup s.rules_by_name toName with
  | none =>
    rw [gnStep_none _ _ _ _ _ _ hm]
    exact h
  | some to_rule =>
    cases hdum : is_dummy to_rule
    · rw [gnStep_nondummy _ _ _ _ _ _ _ hm hdum]
      exact collect_mono _ _ _ h
    · rw [gnStep_dummy _ _ _ _ _ _ _ hm hdum]
      refine foldl_smLookup_mono _ x k ?_ _ acc h
      intro acc2 entry h2
      refine foldl_smLookup_mono _ x k ?_ _ acc2 h2
      intro acc3 r h3
      exact collect_mono _ _ _ h3

/-- C5: dummy transparency of `get_next` — when the graph has edges
`a → d` and `d → b` with `d` a dummy and `b` not, and `b` instantiates
under the caller's captures to `b'`, then with enough fuel for the
recursion `get_next a` contains `b'` under the scope declared on the
edge `d → b`, and the dummy `d` itself is never returned under any
scope (the caller's captures pass through the dummy unchanged). -/
theorem c5_dummy_transparent (s : RuleStore) (a dname bname sad s2 : String)
    (d b b' : Rule) (env : Env) (n : Nat)
    (hda : (sad, dname) ∈ get_neighbors s.rule_graph a)
    (hd : alookup s.rules_by_name dname = some d)
    (hdd : is_dummy d = true)
    (hdb : (s2, bname) ∈ get_neighbors s.rule_graph dname)
    (hb : alookup s.rules_by_name bname = some b)
    (hbd : is_dummy b = false)
    (hinst : try_instantiate b env = some b') :
    b' ∈ smLookup (get_next s (n + 1 + 1) a env) s2 ∧
      ∀ k, d ∉ smLookup (get_next s (n + 1 + 1) a env) k := by
  have hbinst : instantiate b env = b' := by
    unfold instantiate
    rw [hinst]
    rfl
  constructor
  · rw [get_next_succ, smLookup_smEnsure, smLookup_smEnsure]
    refine foldl_smLookup_adds _ b' s2 (gnStep_mono s (n + 1) env b' s2) (sad, dname)
      ?_ _ hda []
    intro acc
    rw [gnStep_dummy _ _ _ _ _ _ _ hd hdd]
    have hinner : b' ∈ smLookup (get_next s (n + 1) dname env) s2 := by
      rw [get_next_succ, smLookup_smEnsure, smLookup_smEnsure]
      refine foldl_smLookup_adds _ b' s2 (gnStep_mono s n env b' s2) (s2, bname)
        ?_ _ hdb []
      intro acc2
      rw [gnStep_nondummy _ _ _ _ _ _ _ hb hbd, hbinst, smLookup_collect, if_pos rfl]
      exact List.mem_append_right _ (List.mem_singleton.mpr rfl)
    obtain ⟨l, hl, hbl⟩ : ∃ l, (s2, l) ∈ get_next s (n + 1) dname env ∧ b' ∈ l := by
      unfold smLookup at hinner
      cases hlo : alookup (get_next s (n + 1) dname env) s2 with
      | none =>
        rw [hlo] at hinner
        exact absurd hinner (List.not_mem_nil b')
      | some l =>
        rw [hlo] at hinner
        exact ⟨l, alookup_mem hlo, hinner⟩
    refine foldl_smLookup_adds _ b' s2 ?_ (s2, l) ?_ _ hl acc
    · intro acc2 entry h2
      refine foldl_smLookup_mono _ b' s2 ?_ _ acc2 h2
      intro acc3 r h3
      exact collect_mono _ _ _ h3
    · intro acc3
      refine foldl_smLookup_adds _ b' s2 ?_ b' ?_ l hbl acc3
      · intro acc4 r h4
        exact collect_mono _ _ _ h4
      · intro acc4
        rw [instantiate_rendered hinst env, smLookup_collect, if_pos rfl]
        exact List.mem_append_right _ (List.mem_singleton.mpr rfl)
  · intro k hk
    obtain ⟨l, hl, hdl⟩ : ∃ l, (k, l) ∈ get_next s (n + 1 + 1) a env ∧ d ∈ l := by
      unfold smLookup at hk
      cases hlo : alookup (get_next s (n + 1 + 1) a env) k with
      | none =>
        rw [hlo] at hk
        exact absurd hk (List.not_mem_nil d)
      | some l =>
        rw [hlo] at hk
        exact ⟨l, alookup_mem hlo, hk⟩
    have hnd : is_dummy d = false := get_next_no_dummy s env (n + 1 + 1) a (k, l) hl d hdl
    rw [hdd] at hnd
    exact Bool.noConfusion hnd

/-- A dummy relay rule: empty query, empty replacement. -/
def dummyRule : Rule := { name := "d", query := [], replace := [], groups := [], filters := [] }

/-- A concrete target rule with the hole `@t`. -/
def bRule : Rule :=
  { name := "b", query := [Segment.hole "t"], replace := [Segment.lit "y"],
    groups := [], filters := [] }

/-- `bRule` rendered under `t ↦ V`. -/
def bRendered : Rule :=
  { name := "b", query := [Segment.lit "V"], replace := [Segment.lit "y"],
    groups := [], filters := [] }

/-- A store whose graph relays `a → d → b` through the dummy `d`. -/
def c5store : RuleStore :=
  { baseStore with
    rule_graph := [("a", [("Parent", "d")]), ("d", [("Method", "b")])]
    rules_by_name := [("d", dummyRule), ("b", bRule)] }

/-- C5, witness: on the concrete relay graph, `get_next "a"` carries the
instantiated `b` under the scope of the edge `d → b` and never the dummy. -/
theorem c5_witness :
    bRendered ∈ smLookup (get_next c5store 2 "a" [("t", "V")]) "Method" ∧
    dummyRule ∉ smLookup (get_next c5store 2 "a" [("t", "V")]) "Method" := by
  have h := c5_dummy_transparent c5store "a" "d" "b" "Parent" "Method"
    dummyRule bRule bRendered [("t", "V")] 0
    (by decide) rfl rfl (by decide) rfl rfl rfl
  exact ⟨h.1, h.2 "Method"⟩

end Piranha
